import Mathlib

/-!
Shallow embedding of the dsfr-mcp core: the LRU content cache (src/cache.ts)
and the documentation query engine (src/core.ts): component doc resolver,
component search, icon search and the color token engine.

JS `Map` iterates in insertion order; the cache is modelled as an association
list whose head is the oldest (least-recently-used) entry.  JS strings are
modelled as Lean `String`s, with the handful of JS string operations the code
uses (`toLowerCase`, `includes`, `startsWith`, `indexOf`, `slice`, `replace`)
embedded over the character list.  The filesystem seen by the content accessor
is an immutable map `String → Option String` from paths to file bodies.
-/

namespace DsfrMcp

/-! ### JS string primitives -/

/-- JS `String.prototype.toLowerCase`, characterwise `Char.toLower` (ASCII letters). -/
def lowerStr (s : String) : String := ⟨s.data.map Char.toLower⟩

/-- Is the first list a prefix of the second?  Models JS `startsWith` on char lists. -/
def isPrefixList [DecidableEq α] : List α → List α → Bool
  | [], _ => true
  | _ :: _, [] => false
  | a :: as, b :: bs => decide (a = b) && isPrefixList as bs

/-- First index at which `needle` occurs inside the second list, `none` when absent.
Models JS `String.prototype.indexOf` (which returns `-1` for absence). -/
def firstIndexOf [DecidableEq α] (needle : List α) : List α → Option Nat
  | [] => if needle = [] then some 0 else none
  | a :: rest =>
    if isPrefixList needle (a :: rest) then some 0
    else (firstIndexOf needle rest).map (· + 1)

/-- JS `s.includes(sub)`: substring containment. -/
def strContains (s sub : String) : Bool := (firstIndexOf sub.data s.data).isSome

/-- JS `s.startsWith(sub)`. -/
def strStarts (s sub : String) : Bool := isPrefixList sub.data s.data

/-- JS `s.slice(start, stop)` for natural (already clamped) bounds. -/
def strSlice (s : String) (start stop : Nat) : String :=
  ⟨(s.data.drop start).take (stop - start)⟩

/-- JS `s.replace(/\n/g, " ")`. -/
def flattenNewlines (s : String) : String :=
  ⟨s.data.map (fun c => if c = '\n' then ' ' else c)⟩

/-! ### LRU cache (src/cache.ts)

The JS `Map` is the list of its entries in insertion order, oldest first;
keys are unique in a `Map`. -/

/-- JS `Map.prototype.get` on the entry list. -/
def lookupKey [DecidableEq K] (k : K) : List (K × V) → Option V
  | [] => none
  | p :: ps => if p.1 = k then some p.2 else lookupKey k ps

/-- JS `Map.prototype.delete`: removes the entry with key `k`.  Keys are unique
in a `Map`, so deleting every pair carrying the key is that same operation. -/
def eraseKey [DecidableEq K] (k : K) (l : List (K × V)) : List (K × V) :=
  l.filter fun p => decide (p.1 ≠ k)

/-- The eviction step of `set`: take the first (least-recently-used) key of the
map, `this.map.keys().next().value`, and delete it when it exists. -/
def evictOldest [DecidableEq K] (l : List (K × V)) : List (K × V) :=
  match l.head? with
  | none => l
  | some p => eraseKey p.1 l

structure LRUCache (K V : Type) where
  entries : List (K × V)
  maxSize : Nat
deriving DecidableEq

namespace LRUCache

variable {K V : Type} [DecidableEq K]

/-- A freshly constructed cache. -/
def empty (maxSize : Nat) : LRUCache K V := ⟨[], maxSize⟩

/-- The constructor: `maxSize < 1` throws. -/
def create (maxSize : Nat) : Except String (LRUCache K V) :=
  if maxSize < 1 then .error "LRU cache maxSize must be at least 1"
  else .ok (empty maxSize)

/-- `get`: on a hit the entry is deleted and re-inserted, moving it to the
most-recently-used end; the cache is untouched on a miss. -/
def get (c : LRUCache K V) (k : K) : Option V × LRUCache K V :=
  match lookupKey k c.entries with
  | none => (none, c)
  | some v => (some v, { c with entries := eraseKey k c.entries ++ [(k, v)] })

/-- `set`: delete any existing entry for the key, append at the
most-recently-used end, then if the size exceeds `maxSize` delete the entry
holding the first (least-recently-used) key. -/
def set (c : LRUCache K V) (k : K) (v : V) : LRUCache K V :=
  let m1 := eraseKey k c.entries ++ [(k, v)]
  if m1.length > c.maxSize then { c with entries := evictOldest m1 }
  else { c with entries := m1 }

/-- `size` getter: the current key count. -/
def size (c : LRUCache K V) : Nat := c.entries.length

/-- `clear`: remove all entries. -/
def clear (c : LRUCache K V) : LRUCache K V := { c with entries := [] }

end LRUCache

/-- One cache operation, for reasoning about operation sequences. -/
inductive CacheOp (K V : Type) where
  | get (k : K)
  | set (k : K) (v : V)
  | clear

/-- Apply one operation to the cache (discarding `get`'s returned value). -/
def applyOp [DecidableEq K] (c : LRUCache K V) : CacheOp K V → LRUCache K V
  | .get k => (c.get k).2
  | .set k v => c.set k v
  | .clear => c.clear

/-- Run a sequence of cache operations left to right. -/
def runOps [DecidableEq K] (c : LRUCache K V) (ops : List (CacheOp K V)) : LRUCache K V :=
  ops.foldl applyOp c

/-- Insert a list of key/value pairs by successive `set` calls. -/
def insertAll [DecidableEq K] (c : LRUCache K V) (ps : List (K × V)) : LRUCache K V :=
  ps.foldl (fun a p => a.set p.1 p.2) c

/-! ### Documentation corpus data model (src/types.ts) -/

structure ComponentEntry where
  name : String
  title : String
  description : String
  category : String
  sections : List String
deriving DecidableEq

structure SearchResult where
  name : String
  title : String
  category : String
  matchType : String
  excerpt : String
deriving DecidableEq

/-- One `{type: "text", text}` item of a tool result. -/
structure TextContent where
  text : String
deriving DecidableEq

/-- A tool result: the `content` list of text items. -/
structure ToolTextResult where
  content : List TextContent
deriving DecidableEq

/-- Wrap a single text into the `{content: [{type: "text", text}]}` shape, the
only shape the core ever produces. -/
def textResult (t : String) : ToolTextResult := ⟨[⟨t⟩]⟩

/-- The filesystem seen by the content accessor: a file body for each existing
path (`existsSync` + `readFileSync`). -/
def FileSystem : Type := String → Option String

/-- `readFileWithCache` (src/core.ts): return the cached body on a hit;
otherwise return `none` for a missing file, else read the body and cache it. -/
def readFileWithCache (fs : FileSystem) (filePath : String)
    (cache : LRUCache String String) : Option String × LRUCache String String :=
  match cache.get filePath with
  | (some cached, cache1) => (some cached, cache1)
  | (none, cache1) =>
    match fs filePath with
    | none => (none, cache1)
    | some content => (some content, cache1.set filePath content)

/-- `join(docsDir, entry.category, entry.name, section + ".md")`. -/
def sectionPath (docsDir : String) (e : ComponentEntry) (sec : String) : String :=
  docsDir ++ "/" ++ e.category ++ "/" ++ e.name ++ "/" ++ sec ++ ".md"

/-! ### Component doc resolver: getComponentDoc (src/core.ts) -/

/-- The not-found payload text, with optional suggestion list. -/
def notFoundText (name : String) (suggestions : List String) : String :=
  "Composant \"" ++ name ++ "\" non trouvé." ++
    (if suggestions.length > 0 then " Suggestions : " ++ String.intercalate ", " suggestions
     else "") ++
    "\nUtilisez list_components pour voir la liste complète."

/-- The unavailable-section payload text, listing the entry's actual sections. -/
def unavailableText (e : ComponentEntry) (sec : String) : String :=
  "Section \"" ++ sec ++ "\" non disponible pour " ++ e.name ++ " (" ++ e.title ++
    "). Sections disponibles : " ++ String.intercalate ", " e.sections

/-- The `find` condition: exact name, or name equal to the lower-cased query. -/
def componentFindCond (name : String) (e : ComponentEntry) : Bool :=
  e.name == name || e.name == lowerStr name

/-- The suggestion list for an unmatched name: entries whose name or lower-cased
title contains the lower-cased query, rendered `name (title)`, first five. -/
def componentSuggestions (index : List ComponentEntry) (name : String) : List String :=
  ((index.filter fun e =>
      strContains e.name (lowerStr name) ||
        strContains (lowerStr e.title) (lowerStr name)).map
    fun e => e.name ++ " (" ++ e.title ++ ")").take 5

/-- `getComponentDoc` (src/core.ts). -/
def getComponentDoc (index : List ComponentEntry) (fs : FileSystem) (docsDir : String)
    (name : String) (sec : String) (cache : LRUCache String String) :
    ToolTextResult × LRUCache String String :=
  match index.find? (componentFindCond name) with
  | none => (textResult (notFoundText name (componentSuggestions index name)), cache)
  | some entry =>
    if entry.sections.contains sec then
      match readFileWithCache fs (sectionPath docsDir entry sec) cache with
      | (none, cache1) => (textResult (unavailableText entry sec), cache1)
      | (some content, cache1) =>
        (textResult ("# " ++ entry.title ++ " — " ++ sec ++ "\n\n" ++ content), cache1)
    else (textResult (unavailableText entry sec), cache)

/-! ### Component search: searchComponents (src/core.ts) -/

/-- The metadata match: the (lower-cased) query occurs in the lower-cased name,
title or description. -/
def metaMatchB (q : String) (e : ComponentEntry) : Bool :=
  strContains (lowerStr e.name) q || strContains (lowerStr e.title) q ||
    strContains (lowerStr e.description) q

/-- The result recorded for a metadata match. -/
def metaResult (e : ComponentEntry) : SearchResult :=
  ⟨e.name, e.title, e.category, "metadata", e.description⟩

/-- The excerpt around the first content match: up to 80 characters of context
each side, clamped to the content, ellipses when clamped, newlines flattened. -/
def contentExcerpt (content q : String) (idx : Nat) : String :=
  let start := idx - 80
  let stop := min content.length (idx + q.length + 80)
  (if start > 0 then "..." else "") ++ flattenNewlines (strSlice content start stop) ++
    (if stop < content.length then "..." else "")

/-- The inner loop of `searchComponents` over one entry's sections: the first
section whose (non-empty) file body contains the query yields a content result;
missing files and empty bodies (both falsy in JS) are skipped. -/
def sectionScan (fs : FileSystem) (docsDir : String) (q : String) (e : ComponentEntry) :
    List String → LRUCache String String → Option SearchResult × LRUCache String String
  | [], cache => (none, cache)
  | sec :: rest, cache =>
    match readFileWithCache fs (sectionPath docsDir e sec) cache with
    | (none, cache1) => sectionScan fs docsDir q e rest cache1
    | (some content, cache1) =>
      if content = "" then sectionScan fs docsDir q e rest cache1
      else
        match firstIndexOf q.data (lowerStr content).data with
        | none => sectionScan fs docsDir q e rest cache1
        | some idx =>
          (some ⟨e.name, e.title, e.category, "content (" ++ sec ++ ")",
            contentExcerpt content q idx⟩, cache1)

/-- The loop body of `searchComponents` for one entry: a metadata match wins and
skips the content scan; otherwise scan the sections in declared order. -/
def entryStep (fs : FileSystem) (docsDir : String) (q : String) (e : ComponentEntry)
    (cache : LRUCache String String) : Option SearchResult × LRUCache String String :=
  if metaMatchB q e then (some (metaResult e), cache)
  else sectionScan fs docsDir q e e.sections cache

/-- The `searchComponents` loop over the index, threading the cache. -/
def searchLoop (fs : FileSystem) (docsDir : String) (q : String) :
    List ComponentEntry → LRUCache String String →
      List SearchResult × LRUCache String String
  | [], cache => ([], cache)
  | e :: rest, cache =>
    let step := entryStep fs docsDir q e cache
    let restRes := searchLoop fs docsDir q rest step.2
    ((match step.1 with
      | some r => r :: restRes.1
      | none => restRes.1), restRes.2)

def searchResultLine (r : SearchResult) : String :=
  "- **" ++ r.name ++ "** (" ++ r.title ++ ") [" ++ r.category ++ "] — " ++ r.matchType ++
    "\n  " ++ r.excerpt

def noResultsText (query : String) : String :=
  "Aucun résultat pour \"" ++ query ++
    "\". Essayez un autre terme ou utilisez list_components pour voir tous les composants."

def searchSuccessText (query : String) (results : List SearchResult) : String :=
  toString results.length ++ " résultat(s) pour \"" ++ query ++ "\" :\n\n" ++
    String.intercalate "\n\n" (results.map searchResultLine)

/-- `searchComponents` (src/core.ts). -/
def searchComponents (index : List ComponentEntry) (fs : FileSystem) (docsDir : String)
    (query : String) (cache : LRUCache String String) :
    ToolTextResult × LRUCache String String :=
  let q := lowerStr query
  let res := searchLoop fs docsDir q index cache
  if res.1.isEmpty then (textResult (noResultsText query), res.2)
  else (textResult (searchSuccessText query res.1), res.2)

/-! ### Icon search: searchIcons (src/core.ts) -/

structure IconEntry where
  name : String
  category : String
  variants : List String
  classes : List String
deriving DecidableEq

/-- The icon score for an (already lower-cased) query: 3 exact, 2 name prefix,
1 name substring or class substring, 0 excluded. -/
def iconScore (q : String) (icon : IconEntry) : Nat :=
  let nm := lowerStr icon.name
  if nm == q then 3
  else if strStarts nm q then 2
  else if strContains nm q then 1
  else if icon.classes.any (fun c => strContains (lowerStr c) q) then 1
  else 0

/-- The sort order of `scored.sort((a, b) => b.score - a.score ||
a.icon.name.localeCompare(b.icon.name))`: descending score, ties by ascending
name. -/
def iconLE (a b : IconEntry × Nat) : Bool :=
  if a.2 = b.2 then decide (a.1.name ≤ b.1.name) else decide (b.2 < a.2)

/-- The candidate restriction: `if (category)` (truthy) filter by exact
category equality. -/
def iconCandidates (icons : List IconEntry) (category : Option String) : List IconEntry :=
  match category with
  | none => icons
  | some cat => if cat == "" then icons else icons.filter (fun i => i.category == cat)

/-- Candidates with positive score, paired with their score, in input order. -/
def iconScored (icons : List IconEntry) (query : String) (category : Option String) :
    List (IconEntry × Nat) :=
  (iconCandidates icons category).filterMap fun icon =>
    if 0 < iconScore (lowerStr query) icon then
      some (icon, iconScore (lowerStr query) icon)
    else none

/-- The scored list after the stable sort (JS `Array.prototype.sort` is
stable; `mergeSort` is its Lean counterpart). -/
def iconSorted (icons : List IconEntry) (query : String) (category : Option String) :
    List (IconEntry × Nat) :=
  (iconScored icons query category).mergeSort iconLE

/-- The sorted list truncated to the top 20 (`slice(0, 20)`). -/
def iconLimited (icons : List IconEntry) (query : String) (category : Option String) :
    List (IconEntry × Nat) :=
  (iconSorted icons query category).take 20

def ICON_CATEGORIES : List String :=
  ["arrows", "buildings", "business", "communication", "design",
   "development", "device", "document", "editor", "finance",
   "health", "logo", "map", "media", "others", "system", "user", "weather"]

def iconLine (icon : IconEntry) : String :=
  (if icon.variants.length > 0 then
    "- **" ++ icon.name ++ "** [" ++ icon.category ++ "] — " ++
      String.intercalate ", " icon.variants ++ "\n  Classes : " ++
      String.intercalate ", " icon.classes
  else
    "- **" ++ icon.name ++ "** [" ++ icon.category ++ "] — sans variante" ++
      "\n  Classes : " ++ String.intercalate ", " icon.classes)

/-- `searchIcons` (src/core.ts). -/
def searchIcons (icons : List IconEntry) (query : String) (category : Option String) :
    ToolTextResult :=
  let limited := iconLimited icons query category
  if limited.isEmpty then
    textResult ("Aucune icône trouvée pour \"" ++ query ++ "\". " ++
      (match category with
        | some cat =>
          if cat == "" then "Catégories disponibles : " ++
            String.intercalate ", " ICON_CATEGORIES
          else "Catégorie \"" ++ cat ++ "\" filtrée."
        | none => "Catégories disponibles : " ++ String.intercalate ", " ICON_CATEGORIES))
  else
    textResult (toString limited.length ++ " icône(s) trouvée(s) pour \"" ++ query ++
      "\"" ++
      (match category with
        | some cat => if cat == "" then "" else " dans \"" ++ cat ++ "\""
        | none => "") ++
      " :\n\n" ++ String.intercalate "\n" ((limited.map Prod.fst).map iconLine))

/-! ### Color token engine: getColorTokens (src/core.ts) -/

structure ColorDecisionToken where
  token : String
  context : String
  description : String
  light : String
  dark : String
deriving DecidableEq

/-- A color family; `correspondences` is the `Record` as an association list in
insertion order: key, then light and dark identifiers. -/
structure ColorFamily where
  name : String
  category : String
  correspondences : List (String × String × String)
deriving DecidableEq

structure ColorsIndex where
  decisionTokens : List ColorDecisionToken
  families : List ColorFamily
  illustrativeNames : List String
deriving DecidableEq

/-- The three optional filters of `get_color_tokens`. -/
structure ColorOptions where
  context : Option String
  usage : Option String
  family : Option String
deriving DecidableEq

/-- JS truthiness of an optional string: `undefined` and `""` are falsy. -/
def strTruthy : Option String → Bool
  | none => false
  | some s => !(s == "")

/-- `[...new Set(xs)]`: distinct elements in first-occurrence order. -/
def distinctFirstAux [DecidableEq α] (seen : List α) : List α → List α
  | [] => []
  | a :: l =>
    if a ∈ seen then distinctFirstAux seen l
    else a :: distinctFirstAux (a :: seen) l

/-- The `if (context) tokens = tokens.filter(...)` stage: keep exact context
matches when the option is truthy. -/
def filterByContext (octx : Option String) (l : List ColorDecisionToken) :
    List ColorDecisionToken :=
  match octx with
  | some ctx => if ctx == "" then l else l.filter (fun t => t.context == ctx)
  | none => l

/-- The `if (usage)` stage: keep tokens whose identifier or description
contains the usage (case-insensitive substring) when the option is truthy. -/
def filterByUsage (ou : Option String) (l : List ColorDecisionToken) :
    List ColorDecisionToken :=
  match ou with
  | some usage =>
    if usage == "" then l
    else l.filter (fun t =>
      strContains (lowerStr t.token) (lowerStr usage) ||
        strContains (lowerStr t.description) (lowerStr usage))
  | none => l

/-- The `if (family)` stage on decision tokens: keep tokens whose identifier
contains the family string (textual heuristic) when the option is truthy. -/
def filterByFamilyText (ofam : Option String) (l : List ColorDecisionToken) :
    List ColorDecisionToken :=
  match ofam with
  | some fam =>
    if fam == "" then l
    else l.filter (fun t => strContains (lowerStr t.token) (lowerStr fam))
  | none => l

/-- The decision tokens surviving the sequential `context` / `usage` / `family`
filters (each guarded by JS truthiness of its option). -/
def colorFilteredTokens (colors : ColorsIndex) (opts : ColorOptions) :
    List ColorDecisionToken :=
  filterByFamilyText opts.family
    (filterByUsage opts.usage (filterByContext opts.context colors.decisionTokens))

def colorTokenLine (t : ColorDecisionToken) : String :=
  "- `" ++ t.token ++ "`\n  " ++ t.description ++ "\n  Clair : " ++ t.light ++
    " | Sombre : " ++ t.dark

/-- Families whose name or category contains the `family` filter. -/
def colorFamilyMatches (colors : ColorsIndex) (fam : String) : List ColorFamily :=
  colors.families.filter fun f =>
    strContains (lowerStr f.name) (lowerStr fam) ||
      strContains (lowerStr f.category) (lowerStr fam)

def colorFamilySection (f : ColorFamily) : String :=
  "### Famille \"" ++ f.name ++ "\" (" ++ f.category ++ ")\n" ++
    String.intercalate "\n" (f.correspondences.map fun kv =>
      "  " ++ kv.1 ++ " : " ++ kv.2.1 ++ " (clair) / " ++ kv.2.2 ++ " (sombre)")

/-- The list of rendered result sections: the decision-token section when any
token survives, then one section per matched family when `family` is given. -/
def colorSections (colors : ColorsIndex) (opts : ColorOptions) : List String :=
  let tokens := colorFilteredTokens colors opts
  (if tokens.length > 0 then
    ["### Tokens de décision\n" ++ String.intercalate "\n" (tokens.map colorTokenLine)]
  else []) ++
  (match opts.family with
    | some fam =>
      if fam == "" then []
      else (colorFamilyMatches colors fam).map colorFamilySection
    | none => [])

def colorSummaryText (colors : ColorsIndex) : String :=
  "Tokens de couleur DSFR disponibles :\n\n**Contextes :** " ++
    String.intercalate ", "
      (distinctFirstAux [] (colors.decisionTokens.map fun t => t.context)) ++
    "\n**Familles :** " ++
    String.intercalate ", " (colors.families.map fun f => f.name ++ " (" ++ f.category ++ ")") ++
    "\n**Couleurs illustratives :** " ++
    String.intercalate ", " colors.illustrativeNames ++
    "\n\nUtilisez les paramètres context, usage ou family pour filtrer."

def colorNoResultText (colors : ColorsIndex) (opts : ColorOptions) : String :=
  "Aucun token trouvé pour " ++
    String.intercalate ", "
      ((match opts.context with
        | some ctx => if ctx == "" then [] else ["context=\"" ++ ctx ++ "\""]
        | none => []) ++
       (match opts.usage with
        | some u => if u == "" then [] else ["usage=\"" ++ u ++ "\""]
        | none => []) ++
       (match opts.family with
        | some f => if f == "" then [] else ["family=\"" ++ f ++ "\""]
        | none => [])) ++
    ". Contextes disponibles : background, text, artwork. Familles : " ++
    String.intercalate ", " (colors.families.map fun f => f.name)

/-- `getColorTokens` (src/core.ts). -/
def getColorTokens (colors : ColorsIndex) (opts : ColorOptions) : ToolTextResult :=
  if !(strTruthy opts.context) && !(strTruthy opts.usage) && !(strTruthy opts.family) then
    textResult (colorSummaryText colors)
  else
    let sections := colorSections colors opts
    if sections.isEmpty then textResult (colorNoResultText colors opts)
    else textResult (String.intercalate "\n\n" sections)

/-! ### Statement-side definitions -/

/-- The content cache only ever holds bodies of files previously read from the
(immutable) filesystem, so every cached entry agrees with it.  This is the
reachable-state invariant of the content accessor. -/
def CacheAgrees (fs : FileSystem) (cache : LRUCache String String) : Prop :=
  ∀ p ∈ cache.entries, fs p.1 = some p.2

/-- The projection of a search result that the per-entry claims compare on:
name, title, category and match type. -/
def searchProj (r : SearchResult) : String × String × String × String :=
  (r.name, r.title, r.category, r.matchType)

/-- Refinement side of the search claim, following its words: the at most one
result an entry contributes, as a pure function of the entry, the filesystem
and the raw query.  A metadata match (case-insensitive) yields the metadata
projection and suppresses the content search; otherwise the first section in
the entry's declared order whose file content contains the query yields a
content projection; otherwise nothing. -/
def specSectionPred (fs : FileSystem) (docsDir : String) (e : ComponentEntry) (q : String)
    (sec : String) : Bool :=
  match fs (sectionPath docsDir e sec) with
  | some content => strContains (lowerStr content) q
  | none => false

def specEntryProj (fs : FileSystem) (docsDir query : String) (e : ComponentEntry) :
    Option (String × String × String × String) :=
  if metaMatchB (lowerStr query) e then some (e.name, e.title, e.category, "metadata")
  else
    match e.sections.find? (specSectionPred fs docsDir e (lowerStr query)) with
    | some sec => some (e.name, e.title, e.category, "content (" ++ sec ++ ")")
    | none => none

/-! ### Concrete test fixtures (used by witnesses) -/

def sampleEntry : ComponentEntry :=
  ⟨"button", "Bouton", "Bouton standard", "component", ["overview", "code"]⟩

def sampleIndex : List ComponentEntry := [sampleEntry]

/-- A filesystem with one documentation file for `sampleEntry`'s code section. -/
def sampleFS : FileSystem := fun p =>
  if p = "docs/component/button/code.md" then some "Un bouton\nclasse fr-btn" else none

/-- The empty filesystem. -/
def emptyFS : FileSystem := fun _ => none

def sampleDownloadIcon : IconEntry :=
  ⟨"download", "system", ["fill", "line"], ["fr-icon-download-fill"]⟩

def sampleIcons : List IconEntry :=
  [⟨"file-download", "document", ["fill", "line"], ["fr-icon-file-download-fill"]⟩,
   sampleDownloadIcon,
   ⟨"home", "buildings", [], ["fr-icon-home"]⟩]

def sampleToken : ColorDecisionToken :=
  ⟨"--background-default-grey", "background", "Fond par défaut", "grey-1000", "grey-75"⟩

def sampleTextToken : ColorDecisionToken :=
  ⟨"--text-default-grey", "text", "Texte par défaut", "grey-200", "grey-900"⟩

def sampleColors : ColorsIndex :=
  ⟨[sampleTextToken, sampleToken],
   [⟨"grey", "neutre", [("default", "grey-1000", "grey-75")]⟩], ["pink"]⟩

/-! ### Basic lemmas about the entry list -/

section CacheLemmas

variable {K V : Type} [DecidableEq K]

theorem lookupKey_eq_none {k : K} {l : List (K × V)}
    (h : ∀ p ∈ l, p.1 ≠ k) : lookupKey k l = none := by
  induction l with
  | nil => rfl
  | cons p ps ih =>
    have hp : p.1 ≠ k := h p (by simp)
    simp only [lookupKey, if_neg hp]
    exact ih fun q hq => h q (by simp [hq])

theorem lookupKey_mem {k : K} {v : V} {l : List (K × V)}
    (h : lookupKey k l = some v) : (k, v) ∈ l := by
  induction l with
  | nil => simp [lookupKey] at h
  | cons p ps ih =>
    by_cases hp : p.1 = k
    · simp only [lookupKey, if_pos hp] at h
      obtain rfl := Option.some_injective _ h
      exact List.mem_cons.mpr (Or.inl (by rw [← hp]))
    · simp only [lookupKey, if_neg hp] at h
      exact List.mem_cons_of_mem _ (ih h)

theorem lookupKey_append_left {k : K} {xs ys : List (K × V)}
    (h : ∀ p ∈ xs, p.1 ≠ k) : lookupKey k (xs ++ ys) = lookupKey k ys := by
  induction xs with
  | nil => rfl
  | cons p ps ih =>
    have hp : p.1 ≠ k := h p (by simp)
    simp only [List.cons_append, lookupKey, if_neg hp]
    exact ih fun q hq => h q (by simp [hq])

theorem lookupKey_middle {k : K} {v : V} {xs ys : List (K × V)}
    (h : ∀ p ∈ xs, p.1 ≠ k) : lookupKey k (xs ++ (k, v) :: ys) = some v := by
  rw [lookupKey_append_left h]
  simp [lookupKey]

theorem lookupKey_of_nodup_mem {k : K} {v : V} {l : List (K × V)}
    (hnd : (l.map Prod.fst).Nodup) (hmem : (k, v) ∈ l) : lookupKey k l = some v := by
  induction l with
  | nil => simp at hmem
  | cons p ps ih =>
    simp only [List.map_cons, List.nodup_cons] at hnd
    rcases List.mem_cons.mp hmem with h | h
    · rw [← h]
      simp [lookupKey]
    · have hp : p.1 ≠ k := by
        intro hk
        exact hnd.1 (hk ▸ (List.mem_map.mpr ⟨(k, v), h, rfl⟩))
      simp only [lookupKey, if_neg hp]
      exact ih hnd.2 h

theorem mem_of_mem_eraseKey {k : K} {p : K × V} {l : List (K × V)}
    (h : p ∈ eraseKey k l) : p ∈ l :=
  List.mem_of_mem_filter h

theorem fst_ne_of_mem_eraseKey {k : K} {p : K × V} {l : List (K × V)}
    (h : p ∈ eraseKey k l) : p.1 ≠ k := by
  have := List.of_mem_filter h
  simpa using this

theorem eraseKey_eq_self {k : K} {l : List (K × V)}
    (h : ∀ p ∈ l, p.1 ≠ k) : eraseKey k l = l :=
  List.filter_eq_self.mpr fun p hp => by simpa using h p hp

theorem length_eraseKey_le (k : K) (l : List (K × V)) :
    (eraseKey k l).length ≤ l.length :=
  List.length_filter_le _ _

theorem length_eraseKey_lt {k : K} {v : V} {l : List (K × V)}
    (h : lookupKey k l = some v) : (eraseKey k l).length < l.length := by
  apply List.length_filter_lt_length_iff_exists.mpr
  exact ⟨(k, v), lookupKey_mem h, by simp⟩

theorem eraseKey_append (k : K) (xs ys : List (K × V)) :
    eraseKey k (xs ++ ys) = eraseKey k xs ++ eraseKey k ys :=
  List.filter_append _ _

theorem eraseKey_cons_self (k : K) (v : V) (l : List (K × V)) :
    eraseKey k ((k, v) :: l) = eraseKey k l := by
  simp [eraseKey]

theorem eraseKey_cons_head (p : K × V) (l : List (K × V)) :
    eraseKey p.1 (p :: l) = eraseKey p.1 l := by
  simp [eraseKey]

theorem evictOldest_nil : evictOldest ([] : List (K × V)) = [] := rfl

theorem evictOldest_cons (p : K × V) (l : List (K × V)) :
    evictOldest (p :: l) = eraseKey p.1 (p :: l) := rfl

theorem length_evictOldest_cons (p : K × V) (l : List (K × V)) :
    (evictOldest (p :: l)).length ≤ l.length := by
  rw [evictOldest_cons, eraseKey_cons_head]
  exact length_eraseKey_le _ _

theorem lookupKey_eq_none_iff {k : K} {l : List (K × V)} :
    lookupKey k l = none ↔ ∀ p ∈ l, p.1 ≠ k := by
  constructor
  · intro h p hp hpk
    induction l with
    | nil => simp at hp
    | cons q qs ih =>
      by_cases hq : q.1 = k
      · simp [lookupKey, hq] at h
      · simp only [lookupKey, if_neg hq] at h
        rcases List.mem_cons.mp hp with rfl | hmem
        · exact hq hpk
        · exact ih h hmem
  · exact lookupKey_eq_none

theorem get_fst (c : LRUCache K V) (k : K) : (c.get k).1 = lookupKey k c.entries := by
  unfold LRUCache.get
  cases lookupKey k c.entries <;> rfl

theorem get_snd_of_lookup {c : LRUCache K V} {k : K} {v : V}
    (h : lookupKey k c.entries = some v) :
    (c.get k).2 = ⟨eraseKey k c.entries ++ [(k, v)], c.maxSize⟩ := by
  unfold LRUCache.get
  rw [h]

theorem get_snd_of_miss {c : LRUCache K V} {k : K}
    (h : lookupKey k c.entries = none) : (c.get k).2 = c := by
  unfold LRUCache.get
  rw [h]

theorem set_no_evict {c : LRUCache K V} {k : K} {v : V}
    (h : (eraseKey k c.entries).length < c.maxSize) :
    c.set k v = ⟨eraseKey k c.entries ++ [(k, v)], c.maxSize⟩ := by
  have hc : ¬ (eraseKey k c.entries ++ [(k, v)]).length > c.maxSize := by
    simp only [List.length_append, List.length_cons, List.length_nil]
    omega
  simp only [LRUCache.set]
  rw [if_neg hc]

theorem set_fresh_no_evict {c : LRUCache K V} {k : K} {v : V}
    (hk : ∀ p ∈ c.entries, p.1 ≠ k) (hlen : c.entries.length < c.maxSize) :
    c.set k v = ⟨c.entries ++ [(k, v)], c.maxSize⟩ := by
  have h2 := set_no_evict (c := c) (k := k) (v := v)
    (by rw [eraseKey_eq_self hk]; exact hlen)
  rw [eraseKey_eq_self hk] at h2
  exact h2

theorem set_fresh_evict {c : LRUCache K V} {k : K} {v : V}
    (hk : ∀ p ∈ c.entries, p.1 ≠ k) (hnd : (c.entries.map Prod.fst).Nodup)
    (hlen : c.maxSize ≤ c.entries.length) :
    c.set k v = ⟨(c.entries ++ [(k, v)]).drop 1, c.maxSize⟩ := by
  have hgt : (c.entries ++ [(k, v)]).length > c.maxSize := by
    simp only [List.length_append, List.length_cons, List.length_nil]
    omega
  simp only [LRUCache.set, eraseKey_eq_self hk]
  rw [if_pos hgt]
  rcases he : c.entries with _ | ⟨q, t⟩
  · simp [evictOldest, eraseKey]
  · rw [he] at hk hnd
    have hqt : ∀ p ∈ t, p.1 ≠ q.1 := by
      simp only [List.map_cons, List.nodup_cons] at hnd
      intro p hp hpk
      exact hnd.1 (hpk ▸ List.mem_map.mpr ⟨p, hp, rfl⟩)
    have hqk : q.1 ≠ k := hk q (List.mem_cons_self q t)
    have herase : eraseKey q.1 (q :: (t ++ [(k, v)])) = t ++ [(k, v)] := by
      rw [eraseKey_cons_head, eraseKey_append, eraseKey_eq_self hqt]
      simp [eraseKey, Ne.symm hqk]
    simp only [List.cons_append, evictOldest_cons, herase, List.drop_succ_cons,
      List.drop_zero]

theorem maxSize_set (c : LRUCache K V) (k : K) (v : V) :
    (c.set k v).maxSize = c.maxSize := by
  simp only [LRUCache.set]
  split <;> rfl

theorem maxSize_get (c : LRUCache K V) (k : K) :
    ((c.get k).2).maxSize = c.maxSize := by
  unfold LRUCache.get
  cases lookupKey k c.entries <;> rfl

theorem size_get_le {c : LRUCache K V} (h : c.size ≤ c.maxSize) (k : K) :
    ((c.get k).2).size ≤ c.maxSize := by
  unfold LRUCache.get
  cases hl : lookupKey k c.entries with
  | none => exact h
  | some v =>
    simp only [LRUCache.size, List.length_append, List.length_cons, List.length_nil]
    have := length_eraseKey_lt hl
    simp only [LRUCache.size] at h
    omega

theorem size_set_le {c : LRUCache K V} (h : c.size ≤ c.maxSize) (k : K) (v : V) :
    (c.set k v).size ≤ c.maxSize := by
  simp only [LRUCache.size] at h
  simp only [LRUCache.set, LRUCache.size]
  have herase := length_eraseKey_le k c.entries
  split
  case isTrue hgt =>
    dsimp only
    rcases hm1 : eraseKey k c.entries ++ [(k, v)] with _ | ⟨p, rest⟩
    · simp [evictOldest]
    · have hlen : rest.length + 1 = (eraseKey k c.entries).length + 1 := by
        have := congrArg List.length hm1
        simp only [List.length_append, List.length_cons, List.length_nil] at this
        omega
      have hrest := length_evictOldest_cons p rest
      omega
  case isFalse hle =>
    simp only [not_lt] at hle
    dsimp only
    simp only [List.length_append, List.length_cons, List.length_nil] at hle ⊢
    omega

theorem size_clear (c : LRUCache K V) : (c.clear).size = 0 := rfl

theorem size_applyOp {c : LRUCache K V} (h : c.size ≤ c.maxSize) (op : CacheOp K V) :
    (applyOp c op).size ≤ (applyOp c op).maxSize ∧ (applyOp c op).maxSize = c.maxSize := by
  cases op with
  | get k => exact ⟨(maxSize_get c k).symm ▸ size_get_le h k, maxSize_get c k⟩
  | set k v => exact ⟨(maxSize_set c k v).symm ▸ size_set_le h k v, maxSize_set c k v⟩
  | clear => exact ⟨by simp [applyOp, LRUCache.clear, LRUCache.size], rfl⟩

theorem size_runOps {c : LRUCache K V} (h : c.size ≤ c.maxSize)
    (ops : List (CacheOp K V)) : (runOps c ops).size ≤ c.maxSize := by
  induction ops generalizing c with
  | nil => exact h
  | cons op ops ih =>
    have h1 := size_applyOp h op
    have h2 := ih (c := applyOp c op) (h1.2 ▸ h1.1)
    rw [h1.2] at h2
    exact h2

theorem insertAll_cons (c : LRUCache K V) (p : K × V) (ps : List (K × V)) :
    insertAll c (p :: ps) = insertAll (c.set p.1 p.2) ps := rfl

/-- Inserting pairwise-distinct fresh keys into a cache of capacity `N` keeps the
last `N` pairs (in insertion order): the entry list is the tail of the combined
pair list past the overflow point. -/
theorem insertAll_fresh_entries {N : Nat} :
    ∀ (ps e : List (K × V)), ((e ++ ps).map Prod.fst).Nodup → e.length ≤ N →
      (insertAll (⟨e, N⟩ : LRUCache K V) ps).entries
        = (e ++ ps).drop (e.length + ps.length - N) := by
  intro ps
  induction ps with
  | nil =>
    intro e hnd hlen
    simp [insertAll, Nat.sub_eq_zero_of_le hlen]
  | cons p ps ih =>
    intro e hnd hlen
    have hfresh : ∀ q ∈ e, q.1 ≠ p.1 := by
      intro q hq hqp
      rw [List.map_append, List.nodup_append] at hnd
      exact hnd.2.2 (List.mem_map.mpr ⟨q, hq, rfl⟩)
        (List.mem_map.mpr ⟨p, List.mem_cons_self p ps, hqp.symm⟩)
    rw [insertAll_cons]
    by_cases hcap : e.length < N
    · have hset : (⟨e, N⟩ : LRUCache K V).set p.1 p.2 = ⟨e ++ [(p.1, p.2)], N⟩ :=
        set_fresh_no_evict hfresh hcap
      rw [hset]
      have hnd2 : (((e ++ [(p.1, p.2)]) ++ ps).map Prod.fst).Nodup := by
        simpa [List.append_assoc] using hnd
      have hlen2 : (e ++ [(p.1, p.2)]).length ≤ N := by
        simp only [List.length_append, List.length_cons, List.length_nil]
        omega
      rw [ih (e ++ [(p.1, p.2)]) hnd2 hlen2]
      have hlist : (e ++ [(p.1, p.2)]) ++ ps = e ++ p :: ps := by
        simp [List.append_assoc]
      have harith : (e ++ [(p.1, p.2)]).length + ps.length - N
          = e.length + (p :: ps).length - N := by
        simp only [List.length_append, List.length_cons, List.length_nil]
        omega
      rw [hlist, harith]
    · have hmax : N ≤ e.length := Nat.le_of_not_lt hcap
      have hndp : (e.map Prod.fst).Nodup := by
        rw [List.map_append, List.nodup_append] at hnd
        exact hnd.1
      have hset : (⟨e, N⟩ : LRUCache K V).set p.1 p.2 = ⟨(e ++ [(p.1, p.2)]).drop 1, N⟩ :=
        set_fresh_evict hfresh hndp hmax
      rw [hset]
      have hsub : List.Sublist (((e ++ [(p.1, p.2)]).drop 1) ++ ps)
          ((e ++ [(p.1, p.2)]) ++ ps) :=
        (List.drop_sublist 1 _).append_right ps
      have hnd2 : ((((e ++ [(p.1, p.2)]).drop 1) ++ ps).map Prod.fst).Nodup := by
        apply List.Nodup.sublist (hsub.map Prod.fst)
        simpa [List.append_assoc] using hnd
      have hlen2 : ((e ++ [(p.1, p.2)]).drop 1).length ≤ N := by
        simp only [List.length_drop, List.length_append, List.length_cons, List.length_nil]
        omega
      rw [ih _ hnd2 hlen2]
      have hdropapp : ((e ++ [(p.1, p.2)]).drop 1) ++ ps
          = ((e ++ [(p.1, p.2)]) ++ ps).drop 1 :=
        (List.drop_append_of_le_length
          (by simp only [List.length_append, List.length_cons, List.length_nil]; omega)).symm
      rw [hdropapp, List.drop_drop]
      have hlist : (e ++ [(p.1, p.2)]) ++ ps = e ++ p :: ps := by
        simp [List.append_assoc]
      have he : e.length = N := Nat.le_antisymm hlen hmax
      have harith : 1 + (((e ++ [(p.1, p.2)]).drop 1).length + ps.length - N)
          = e.length + (p :: ps).length - N := by
        simp only [List.length_drop, List.length_append, List.length_cons, List.length_nil]
        omega
      rw [hlist, harith]

end CacheLemmas

/-! ### Claims about the LRU cache -/

/-- Claim C1: for every capacity `N ≥ 1`, inserting `N + 1` pairwise-distinct
keys in order via `set` into a fresh cache, with no intervening `get`, evicts
exactly the least-recently-used entry at each overflowing insertion: afterwards
the entry list is exactly the tail of the inserted pairs, so the first key is
absent, the cache holds `N` entries, and each of the remaining `N` keys is
present with its inserted value. -/
theorem lru_insert_distinct {K V : Type} [DecidableEq K] (N : Nat) (hN : 1 ≤ N)
    (ps : List (K × V)) (hlen : ps.length = N + 1) (hnd : (ps.map Prod.fst).Nodup) :
    (insertAll (LRUCache.empty N) ps).entries = ps.tail ∧
    (insertAll (LRUCache.empty N) ps).size = N ∧
    (∀ k v, ps.head? = some (k, v) → ((insertAll (LRUCache.empty N) ps).get k).1 = none) ∧
    (∀ p ∈ ps.tail, ((insertAll (LRUCache.empty N) ps).get p.1).1 = some p.2) := by
  have hmain : (insertAll (LRUCache.empty N) ps).entries = ps.tail := by
    have h := insertAll_fresh_entries (N := N) ps [] (by simpa using hnd) (by simp)
    simp only [List.nil_append, List.length_nil, Nat.zero_add] at h
    simp only [LRUCache.empty]
    rw [h, hlen, Nat.add_sub_cancel_left, List.drop_one]
  refine ⟨hmain, ?_, ?_, ?_⟩
  · simp only [LRUCache.size, hmain]
    rw [List.length_tail, hlen]
    omega
  · intro k v hhead
    rcases ps with _ | ⟨p0, ps'⟩
    · simp at hhead
    · simp only [List.head?_cons, Option.some_inj] at hhead
      subst hhead
      rw [get_fst, hmain]
      apply lookupKey_eq_none
      intro q hq hqk
      simp only [List.tail_cons] at hq
      simp only [List.map_cons, List.nodup_cons] at hnd
      exact hnd.1 (hqk ▸ List.mem_map.mpr ⟨q, hq, rfl⟩)
  · intro p hp
    rw [get_fst, hmain]
    have hndt : (ps.tail.map Prod.fst).Nodup := by
      apply List.Nodup.sublist ((List.tail_sublist ps).map Prod.fst)
      exact hnd
    exact lookupKey_of_nodup_mem hndt (by simpa using hp)

/-- Witness for C1 at capacity 1 with keys `a`, `b`. -/
theorem lru_insert_distinct_witness :
    ((insertAll (LRUCache.empty 1) [("a", 1), ("b", 2)] : LRUCache String Nat).get "a").1
      = none := by
  have h := lru_insert_distinct (K := String) (V := Nat) 1 (by decide)
    [("a", 1), ("b", 2)] (by decide) (by decide)
  exact h.2.2.1 "a" 1 rfl

/-- Claim C2: for every capacity `N ≥ 1` and every sequence of `get`, `set` and
`clear` operations on a fresh cache of that capacity, the reported size stays
between `0` and `N`. -/
theorem lru_size_invariant {K V : Type} [DecidableEq K] (N : Nat) (hN : 1 ≤ N)
    (ops : List (CacheOp K V)) :
    0 ≤ (runOps (LRUCache.empty N) ops).size ∧ (runOps (LRUCache.empty N) ops).size ≤ N :=
  ⟨Nat.zero_le _, size_runOps (by simp [LRUCache.empty, LRUCache.size]) ops⟩

/-- Witness for C2 on a concrete operation sequence at capacity 2. -/
theorem lru_size_invariant_witness :
    0 ≤ (runOps (LRUCache.empty 2)
        [CacheOp.set "a" 1, CacheOp.set "b" 2, CacheOp.set "c" 3,
         CacheOp.get "a", CacheOp.clear, CacheOp.set "d" 4] : LRUCache String Nat).size ∧
    (runOps (LRUCache.empty 2)
        [CacheOp.set "a" 1, CacheOp.set "b" 2, CacheOp.set "c" 3,
         CacheOp.get "a", CacheOp.clear, CacheOp.set "d" 4] : LRUCache String Nat).size ≤ 2 :=
  lru_size_invariant 2 (by decide) _

/-- Counterexample to claim C3 as stated: at capacity `N = 1` the key `a` is
present, `get a` refreshes it, and inserting the single new key `b` still
evicts `a` — afterwards `get a` returns the absence marker, not `a`'s value. -/
theorem lru_refresh_counterexample :
    (((((LRUCache.empty 1 : LRUCache String Nat).set "a" 1).get "a").1 = some 1) ∧
     (lookupKey "b" ((((LRUCache.empty 1 : LRUCache String Nat).set "a" 1).get "a").2).entries
        = none) ∧
     ¬ ((((((LRUCache.empty 1 : LRUCache String Nat).set "a" 1).get "a").2).set "b" 2).get
          "a").1 = some 1) := by
  decide

/-- Claim C3 (amended: capacity at least 2): in a cache of capacity `N ≥ 2`
holding key `k`, performing `get k` and then `set k' v'` for a single new key
`k'` not currently in the cache does not evict `k`: `get k` afterwards still
returns its value. -/
theorem lru_refresh_protects {K V : Type} [DecidableEq K] (c : LRUCache K V)
    (hcap : 2 ≤ c.maxSize) {k : K} {v : V} (hk : lookupKey k c.entries = some v)
    {k' : K} (hk' : lookupKey k' c.entries = none) (v' : V) :
    ((((c.get k).2).set k' v').get k).1 = some v := by
  have hne : ∀ p ∈ c.entries, p.1 ≠ k' := lookupKey_eq_none_iff.mp hk'
  have hkk' : k ≠ k' := by
    rintro rfl
    rw [hk'] at hk
    exact Option.noConfusion hk
  rw [get_snd_of_lookup hk]
  have hfresh1 : ∀ p ∈ eraseKey k c.entries ++ [(k, v)], p.1 ≠ k' := by
    intro p hp
    rcases List.mem_append.mp hp with h | h
    · exact hne p (mem_of_mem_eraseKey h)
    · simp only [List.mem_cons, List.not_mem_nil, or_false] at h
      rw [h]
      exact hkk'
  simp only [LRUCache.set, eraseKey_eq_self hfresh1]
  by_cases hov : ((eraseKey k c.entries ++ [(k, v)]) ++ [(k', v')]).length > c.maxSize
  · rw [if_pos hov]
    have hlen1 : 1 ≤ (eraseKey k c.entries).length := by
      simp only [List.length_append, List.length_cons, List.length_nil] at hov
      omega
    obtain ⟨q, t, hqt⟩ := List.exists_cons_of_ne_nil
      (List.ne_nil_of_length_pos (by omega) : eraseKey k c.entries ≠ [])
    have hqk : q.1 ≠ k := fst_ne_of_mem_eraseKey (hqt ▸ List.mem_cons_self q t)
    have hqk' : q.1 ≠ k' := hne q (mem_of_mem_eraseKey (hqt ▸ List.mem_cons_self q t))
    have htk : ∀ p ∈ t, p.1 ≠ k := by
      intro p hp
      exact fst_ne_of_mem_eraseKey (hqt ▸ List.mem_cons_of_mem q hp)
    rw [hqt]
    simp only [List.cons_append, evictOldest_cons]
    rw [get_fst]
    show lookupKey k (eraseKey q.1 (q :: ((t ++ [(k, v)]) ++ [(k', v')]))) = some v
    rw [eraseKey_cons_head, eraseKey_append, eraseKey_append]
    have h1 : eraseKey q.1 [(k, v)] = [(k, v)] :=
      eraseKey_eq_self (by simp [Ne.symm hqk])
    have h2 : eraseKey q.1 [(k', v')] = [(k', v')] :=
      eraseKey_eq_self (by simp [Ne.symm hqk'])
    rw [h1, h2, List.append_assoc]
    apply lookupKey_middle
    intro p hp
    exact htk p (mem_of_mem_eraseKey hp)
  · rw [if_neg hov]
    rw [get_fst]
    show lookupKey k ((eraseKey k c.entries ++ [(k, v)]) ++ [(k', v')]) = some v
    rw [List.append_assoc]
    apply lookupKey_middle
    intro p hp
    exact fst_ne_of_mem_eraseKey hp

/-- Witness for the amended C3 at capacity 2. -/
theorem lru_refresh_protects_witness :
    ((((((LRUCache.empty 2 : LRUCache String Nat).set "a" 1).get "a").2).set "b" 2).get
        "a").1 = some 1 :=
  lru_refresh_protects ((LRUCache.empty 2 : LRUCache String Nat).set "a" 1)
    (by decide) (by decide) (by decide) 2


/-! ### Character and string lemmas -/

theorem charOfNat_toNat {n : Nat} (h : n < 55296) : (Char.ofNat n).toNat = n := by
  have hv : n.isValidChar := Or.inl h
  simp [Char.ofNat, hv, Char.ofNatAux, Char.toNat, UInt32.toNat, BitVec.toNat_ofNatLt]

theorem char_toLower_eq (c : Char) :
    c.toLower = if 65 ≤ c.toNat ∧ c.toNat ≤ 90 then Char.ofNat (c.toNat + 32) else c := rfl

theorem char_toLower_idem (c : Char) : c.toLower.toLower = c.toLower := by
  by_cases h : 65 ≤ c.toNat ∧ c.toNat ≤ 90
  · have h1 : c.toLower = Char.ofNat (c.toNat + 32) := by
      rw [char_toLower_eq, if_pos h]
    have h2 : (Char.ofNat (c.toNat + 32)).toNat = c.toNat + 32 := charOfNat_toNat (by omega)
    rw [h1, char_toLower_eq, h2, if_neg (by omega)]
  · have h1 : c.toLower = c := by rw [char_toLower_eq, if_neg h]
    simp only [h1]

theorem lowerStr_idem (s : String) : lowerStr (lowerStr s) = lowerStr s := by
  unfold lowerStr
  simp only [List.map_map]
  congr 1
  apply List.map_congr_left
  intro c _
  exact char_toLower_idem c

theorem strContains_empty_needle (s : String) : strContains s "" = true := by
  unfold strContains
  cases hs : s.data with
  | nil => simp [firstIndexOf]
  | cons a t => simp [firstIndexOf, isPrefixList]

theorem strContains_nil_of_ne {q : String} (h : q ≠ "") : strContains "" q = false := by
  have hd : q.data ≠ [] := by
    intro hdn
    apply h
    cases q with
    | mk l => cases hdn; rfl
  unfold strContains
  have : ("" : String).data = [] := rfl
  rw [this]
  unfold firstIndexOf
  rw [if_neg hd]
  rfl

theorem find?_congr_of_eq {α : Type} {p q : α → Bool} :
    ∀ {l : List α}, (∀ a ∈ l, p a = q a) → l.find? p = l.find? q := by
  intro l
  induction l with
  | nil => intro _; rfl
  | cons a t ih =>
    intro h
    rw [List.find?_cons, List.find?_cons, h a (List.mem_cons_self a t)]
    cases q a
    · exact ih fun b hb => h b (List.mem_cons_of_mem a hb)
    · rfl

/-! ### Claims about the component doc resolver -/

theorem componentFindCond_lower {index : List ComponentEntry} (name : String)
    (hlow : ∀ e ∈ index, lowerStr e.name = e.name) :
    index.find? (componentFindCond name) = index.find? (componentFindCond (lowerStr name)) := by
  apply find?_congr_of_eq
  intro e he
  unfold componentFindCond
  rw [lowerStr_idem]
  by_cases h : e.name = name
  · subst h
    rw [hlow e he]
  · have hbe : (e.name == name) = false := beq_eq_false_iff_ne.mpr h
    rw [hbe, Bool.false_or, Bool.or_self]

/-- Counterexample to claim C6 as stated: with a lowercase-named index and the
unmatched query `ZZZ`, the resolver returns the not-found payload echoing the
query verbatim, so the `ZZZ` and `zzz` lookups return different payloads. -/
theorem getComponentDoc_case_counterexample :
    (∀ e ∈ sampleIndex, lowerStr e.name = e.name) ∧
    (getComponentDoc sampleIndex emptyFS "docs" "ZZZ" "code" (LRUCache.empty 50)).1
      ≠ (getComponentDoc sampleIndex emptyFS "docs" "zzz" "code" (LRUCache.empty 50)).1 := by
  constructor
  · decide
  · decide

/-- Claim C6 (amended: restricted to query names that match an entry): on an
index whose entry names are lowercase, a lookup that selects an entry selects
the same entry as the lookup with the lower-cased name, and the two calls
return identical payloads and caches. -/
theorem getComponentDoc_case_insensitive (index : List ComponentEntry) (fs : FileSystem)
    (docsDir name sec : String) (cache : LRUCache String String)
    (hlow : ∀ e ∈ index, lowerStr e.name = e.name)
    (hfound : (index.find? (componentFindCond name)).isSome = true) :
    getComponentDoc index fs docsDir name sec cache
      = getComponentDoc index fs docsDir (lowerStr name) sec cache := by
  obtain ⟨entry, hentry⟩ := Option.isSome_iff_exists.mp hfound
  have h2 : index.find? (componentFindCond (lowerStr name)) = some entry :=
    (componentFindCond_lower name hlow) ▸ hentry
  unfold getComponentDoc
  rw [hentry, h2]

/-- Witness for the amended C6: `BUTTON` and `button` resolve identically. -/
theorem getComponentDoc_case_insensitive_witness :
    getComponentDoc sampleIndex sampleFS "docs" "BUTTON" "code" (LRUCache.empty 50)
      = getComponentDoc sampleIndex sampleFS "docs" (lowerStr "BUTTON") "code"
        (LRUCache.empty 50) :=
  getComponentDoc_case_insensitive sampleIndex sampleFS "docs" "BUTTON" "code"
    (LRUCache.empty 50) (by decide) (by decide)

/-- Claim C7: a query name matching no entry yields the not-found payload naming
the query and carrying the suggestion list: entries whose name or lower-cased
title contains the lower-cased query, in index order, truncated to five; the
cache is untouched and the payload is returned in every case (no exception). -/
theorem getComponentDoc_not_found (index : List ComponentEntry) (fs : FileSystem)
    (docsDir name sec : String) (cache : LRUCache String String)
    (hnone : index.find? (componentFindCond name) = none) :
    getComponentDoc index fs docsDir name sec cache
      = (textResult (notFoundText name (componentSuggestions index name)), cache) ∧
    (componentSuggestions index name).length ≤ 5 := by
  constructor
  · unfold getComponentDoc
    rw [hnone]
  · unfold componentSuggestions
    rw [List.length_take]
    exact min_le_left _ _

/-- Witness for C7 on a one-entry index and an unmatched name. -/
theorem getComponentDoc_not_found_witness :
    getComponentDoc sampleIndex emptyFS "docs" "zz-missing" "code" (LRUCache.empty 50)
      = (textResult (notFoundText "zz-missing"
          (componentSuggestions sampleIndex "zz-missing")), LRUCache.empty 50) ∧
    (componentSuggestions sampleIndex "zz-missing").length ≤ 5 :=
  getComponentDoc_not_found sampleIndex emptyFS "docs" "zz-missing" "code"
    (LRUCache.empty 50) (by decide)

theorem lru_get_miss {K V : Type} [DecidableEq K] {c : LRUCache K V} {k : K}
    (h : lookupKey k c.entries = none) : c.get k = (none, c) := by
  unfold LRUCache.get
  rw [h]

theorem readFileWithCache_miss {fs : FileSystem} {p : String} {cache : LRUCache String String}
    (h : (readFileWithCache fs p cache).1 = none) :
    readFileWithCache fs p cache = (none, cache) := by
  unfold readFileWithCache at h ⊢
  cases hl : lookupKey p cache.entries with
  | some v =>
    have hg : cache.get p
        = (some v, ⟨eraseKey p cache.entries ++ [(p, v)], cache.maxSize⟩) := by
      unfold LRUCache.get
      rw [hl]
    rw [hg] at h
    simp at h
  | none =>
    have hg : cache.get p = (none, cache) := lru_get_miss hl
    rw [hg] at h ⊢
    cases hf : fs p with
    | none => rfl
    | some content =>
      rw [hf] at h
      simp at h

/-- Claim C8: for a matched entry, both failure modes produce the identical
unavailable-section payload naming the entry and listing its sections: when
the requested section is not among the entry's sections, and when the section
is listed but the file read yields not-found; neither path raises and neither
touches the cache. -/
theorem getComponentDoc_unavailable (index : List ComponentEntry) (fs : FileSystem)
    (docsDir name sec : String) (cache : LRUCache String String) (entry : ComponentEntry)
    (hfound : index.find? (componentFindCond name) = some entry) :
    (sec ∉ entry.sections →
      getComponentDoc index fs docsDir name sec cache
        = (textResult (unavailableText entry sec), cache)) ∧
    (sec ∈ entry.sections →
      (readFileWithCache fs (sectionPath docsDir entry sec) cache).1 = none →
      getComponentDoc index fs docsDir name sec cache
        = (textResult (unavailableText entry sec), cache)) := by
  constructor
  · intro hsec
    have hc : entry.sections.contains sec = false := by simpa using hsec
    unfold getComponentDoc
    rw [hfound]
    simp only [hc, Bool.false_eq_true, if_false]
  · intro hsec hread
    have hc : entry.sections.contains sec = true := by simpa using hsec
    unfold getComponentDoc
    rw [hfound]
    simp only [hc, if_true]
    rw [readFileWithCache_miss hread]

/-- Witness for C8: `demo` is not among `button`'s sections, and the listed
`overview` section's file is missing from the filesystem; both give the same
payload. -/
theorem getComponentDoc_unavailable_witness :
    getComponentDoc sampleIndex emptyFS "docs" "button" "demo" (LRUCache.empty 50)
      = (textResult (unavailableText sampleEntry "demo"), LRUCache.empty 50) ∧
    getComponentDoc sampleIndex emptyFS "docs" "button" "overview" (LRUCache.empty 50)
      = (textResult (unavailableText sampleEntry "overview"), LRUCache.empty 50) :=
  ⟨(getComponentDoc_unavailable sampleIndex emptyFS "docs" "button" "demo"
      (LRUCache.empty 50) sampleEntry (by decide)).1 (by decide),
   (getComponentDoc_unavailable sampleIndex emptyFS "docs" "button" "overview"
      (LRUCache.empty 50) sampleEntry (by decide)).2 (by decide) (by decide)⟩

/-! ### Claims about the color token engine -/

theorem mem_of_filterByUsage {ou : Option String} {l : List ColorDecisionToken}
    {t : ColorDecisionToken} (h : t ∈ filterByUsage ou l) : t ∈ l := by
  cases ou with
  | none => exact h
  | some usage =>
    simp only [filterByUsage] at h
    by_cases he : (usage == "") = true
    · rw [if_pos he] at h
      exact h
    · rw [if_neg he] at h
      exact List.mem_of_mem_filter h

theorem mem_of_filterByFamilyText {ofam : Option String} {l : List ColorDecisionToken}
    {t : ColorDecisionToken} (h : t ∈ filterByFamilyText ofam l) : t ∈ l := by
  cases ofam with
  | none => exact h
  | some fam =>
    simp only [filterByFamilyText] at h
    by_cases he : (fam == "") = true
    · rw [if_pos he] at h
      exact h
    · rw [if_neg he] at h
      exact List.mem_of_mem_filter h

/-- Counterexample to claim C9 as stated: the empty string is a given context
filter value, but it is JS-falsy, so the code skips the context filter; with a
usage filter present (to escape the no-filter summary) the decision-token
section contains a token whose context `text` differs from the given filter
value `""`. -/
theorem color_context_counterexample :
    colorFilteredTokens sampleColors ⟨some "", some "texte", none⟩ = [sampleTextToken] ∧
    (colorSections sampleColors ⟨some "", some "texte", none⟩).length = 1 ∧
    sampleTextToken.context ≠ "" := by
  refine ⟨by decide, by decide, by decide⟩

/-- Claim C9 (amended: non-empty context filter value): every token surviving
the filters of `getColorTokens` — in particular every token rendered into the
decision-token section — has exactly the requested context. -/
theorem color_context_filter (colors : ColorsIndex) (opts : ColorOptions) (ctx : String)
    (hctx : opts.context = some ctx) (hne : ctx ≠ "") :
    ∀ t ∈ colorFilteredTokens colors opts, t.context = ctx := by
  intro t ht
  unfold colorFilteredTokens at ht
  have h1 : t ∈ filterByContext opts.context colors.decisionTokens :=
    mem_of_filterByUsage (mem_of_filterByFamilyText ht)
  rw [hctx] at h1
  simp only [filterByContext] at h1
  rw [if_neg (by simpa using hne)] at h1
  have := List.of_mem_filter h1
  simpa using this

/-- Witness for the amended C9: filtering `sampleColors` by context
`background` keeps only background tokens. -/
theorem color_context_filter_witness : sampleToken.context = "background" :=
  color_context_filter sampleColors ⟨some "background", none, none⟩ "background"
    rfl (by decide) sampleToken (by decide)


/-! ### Claims about the component search -/

theorem lowerStr_empty : lowerStr "" = "" := rfl

theorem cacheAgrees_empty (fs : FileSystem) (N : Nat) :
    CacheAgrees fs (LRUCache.empty N) := by
  intro p hp
  simp [LRUCache.empty] at hp

theorem cacheAgrees_get {fs : FileSystem} {cache : LRUCache String String}
    (h : CacheAgrees fs cache) (k : String) : CacheAgrees fs ((cache.get k).2) := by
  intro p hp
  cases hl : lookupKey k cache.entries with
  | none =>
    rw [lru_get_miss hl] at hp
    exact h p hp
  | some v =>
    rw [get_snd_of_lookup hl] at hp
    rcases List.mem_append.mp hp with hm | hm
    · exact h p (mem_of_mem_eraseKey hm)
    · simp only [List.mem_cons, List.not_mem_nil, or_false] at hm
      rw [hm]
      exact h (k, v) (lookupKey_mem hl)

theorem mem_of_mem_evictOldest {K V : Type} [DecidableEq K] {l : List (K × V)}
    {p : K × V} (h : p ∈ evictOldest l) : p ∈ l := by
  cases l with
  | nil => exact h
  | cons a t =>
    rw [evictOldest_cons] at h
    exact mem_of_mem_eraseKey h

theorem cacheAgrees_set {fs : FileSystem} {cache : LRUCache String String}
    (h : CacheAgrees fs cache) {k : String} {v : String} (hfs : fs k = some v) :
    CacheAgrees fs (cache.set k v) := by
  intro p hp
  have hp2 : p ∈ eraseKey k cache.entries ++ [(k, v)] := by
    simp only [LRUCache.set] at hp
    split at hp
    · exact mem_of_mem_evictOldest hp
    · exact hp
  rcases List.mem_append.mp hp2 with hm | hm
  · exact h p (mem_of_mem_eraseKey hm)
  · simp only [List.mem_cons, List.not_mem_nil, or_false] at hm
    rw [hm]
    exact hfs

theorem readFileWithCache_agrees (fs : FileSystem) (p0 : String)
    {cache : LRUCache String String} (h : CacheAgrees fs cache) :
    (readFileWithCache fs p0 cache).1 = fs p0 ∧
      CacheAgrees fs (readFileWithCache fs p0 cache).2 := by
  unfold readFileWithCache
  cases hl : lookupKey p0 cache.entries with
  | some v =>
    have hg : cache.get p0
        = (some v, ⟨eraseKey p0 cache.entries ++ [(p0, v)], cache.maxSize⟩) := by
      unfold LRUCache.get
      rw [hl]
    rw [hg]
    refine ⟨(h (p0, v) (lookupKey_mem hl)).symm, ?_⟩
    have h2 := cacheAgrees_get h p0
    rw [hg] at h2
    exact h2
  | none =>
    have hg : cache.get p0 = (none, cache) := lru_get_miss hl
    rw [hg]
    cases hf : fs p0 with
    | none => exact ⟨rfl, h⟩
    | some content => exact ⟨rfl, cacheAgrees_set h hf⟩

theorem sectionScan_spec (fs : FileSystem) (docsDir q : String) (e : ComponentEntry)
    (hq : q ≠ "") :
    ∀ (secs : List String) (cache : LRUCache String String), CacheAgrees fs cache →
      ((sectionScan fs docsDir q e secs cache).1.map searchProj
        = (secs.find? (specSectionPred fs docsDir e q)).map
            (fun sec => (e.name, e.title, e.category, "content (" ++ sec ++ ")"))) ∧
      CacheAgrees fs (sectionScan fs docsDir q e secs cache).2 := by
  intro secs
  induction secs with
  | nil =>
    intro cache h
    exact ⟨rfl, h⟩
  | cons sec rest ih =>
    intro cache h
    have hr := readFileWithCache_agrees fs (sectionPath docsDir e sec) h
    have hpair : readFileWithCache fs (sectionPath docsDir e sec) cache
        = (fs (sectionPath docsDir e sec),
           (readFileWithCache fs (sectionPath docsDir e sec) cache).2) := by
      rw [← hr.1]
    simp only [sectionScan]
    rw [hpair]
    cases hf : fs (sectionPath docsDir e sec) with
    | none =>
      have hpred : specSectionPred fs docsDir e q sec = false := by
        unfold specSectionPred
        rw [hf]
      rw [List.find?_cons_of_neg _ (by rw [hpred]; exact Bool.false_ne_true)]
      dsimp only
      exact ih _ hr.2
    | some content =>
      by_cases hc : content = ""
      · subst hc
        have hpred : specSectionPred fs docsDir e q sec = false := by
          unfold specSectionPred
          rw [hf]
          show strContains (lowerStr "") q = false
          rw [lowerStr_empty, strContains_nil_of_ne hq]
        rw [List.find?_cons_of_neg _ (by rw [hpred]; exact Bool.false_ne_true)]
        dsimp only
        rw [if_pos rfl]
        exact ih _ hr.2
      · cases hidx : firstIndexOf q.data (lowerStr content).data with
        | none =>
          have hpred : specSectionPred fs docsDir e q sec = false := by
            unfold specSectionPred
            rw [hf]
            show (firstIndexOf q.data (lowerStr content).data).isSome = false
            rw [hidx]
            rfl
          rw [List.find?_cons_of_neg _ (by rw [hpred]; exact Bool.false_ne_true)]
          dsimp only
          rw [if_neg hc, hidx]
          exact ih _ hr.2
        | some idx =>
          have hpred : specSectionPred fs docsDir e q sec = true := by
            unfold specSectionPred
            rw [hf]
            show (firstIndexOf q.data (lowerStr content).data).isSome = true
            rw [hidx]
            rfl
          rw [List.find?_cons_of_pos _ (by rw [hpred])]
          dsimp only
          rw [if_neg hc, hidx]
          exact ⟨rfl, hr.2⟩

theorem entryStep_spec (fs : FileSystem) (docsDir query : String) (e : ComponentEntry)
    (cache : LRUCache String String) (h : CacheAgrees fs cache) :
    ((entryStep fs docsDir (lowerStr query) e cache).1.map searchProj
      = specEntryProj fs docsDir query e) ∧
    CacheAgrees fs (entryStep fs docsDir (lowerStr query) e cache).2 := by
  unfold entryStep specEntryProj
  by_cases hm : metaMatchB (lowerStr query) e = true
  · rw [if_pos hm, if_pos hm]
    exact ⟨rfl, h⟩
  · have hq : lowerStr query ≠ "" := by
      intro hq0
      apply hm
      unfold metaMatchB
      rw [hq0, strContains_empty_needle]
      rfl
    rw [if_neg hm, if_neg hm]
    have hs := sectionScan_spec fs docsDir (lowerStr query) e hq e.sections cache h
    refine ⟨?_, hs.2⟩
    rw [hs.1]
    cases e.sections.find? (specSectionPred fs docsDir e (lowerStr query)) <;> rfl

theorem searchLoop_spec {fs : FileSystem} {docsDir query : String} :
    ∀ (index : List ComponentEntry) (cache : LRUCache String String), CacheAgrees fs cache →
      ((searchLoop fs docsDir (lowerStr query) index cache).1.map searchProj
        = index.filterMap (specEntryProj fs docsDir query)) ∧
      CacheAgrees fs (searchLoop fs docsDir (lowerStr query) index cache).2 := by
  intro index
  induction index with
  | nil =>
    intro cache h
    exact ⟨rfl, h⟩
  | cons e rest ih =>
    intro cache h
    have he := entryStep_spec fs docsDir query e cache h
    have hrest := ih (entryStep fs docsDir (lowerStr query) e cache).2 he.2
    simp only [searchLoop]
    constructor
    · cases hstep : (entryStep fs docsDir (lowerStr query) e cache).1 with
      | none =>
        have hspec : specEntryProj fs docsDir query e = none := by
          rw [← he.1, hstep]
          rfl
        rw [List.filterMap_cons_none hspec]
        dsimp only
        exact hrest.1
      | some r =>
        have hspec : specEntryProj fs docsDir query e = some (searchProj r) := by
          rw [← he.1, hstep]
          rfl
        rw [List.filterMap_cons_some hspec]
        dsimp only
        rw [List.map_cons, hrest.1]
    · exact hrest.2

/-- Claim C4: for every index, query and cache agreeing with the filesystem (the
reachable cache states), the search produces at most one result per entry and
preserves index order: projected on (name, title, category, matchType), the
result list is exactly the per-entry `specEntryProj` map over the index — a
metadata match yields the single `metadata` result, otherwise the first section
in declared order whose file content contains the query yields the single
content result, and entries matching neither contribute nothing.  Moreover a
metadata-matched entry performs no content search: its step returns the
metadata result and leaves the cache untouched. -/
theorem searchComponents_per_entry (index : List ComponentEntry) (fs : FileSystem)
    (docsDir query : String) (cache : LRUCache String String)
    (hagree : CacheAgrees fs cache) :
    ((searchLoop fs docsDir (lowerStr query) index cache).1.map searchProj
      = index.filterMap (specEntryProj fs docsDir query)) ∧
    (∀ (e : ComponentEntry) (c : LRUCache String String),
      metaMatchB (lowerStr query) e = true →
      entryStep fs docsDir (lowerStr query) e c = (some (metaResult e), c)) :=
  ⟨(searchLoop_spec index cache hagree).1,
   fun e c hm => by
    unfold entryStep
    rw [if_pos hm]⟩

/-- Witness for C4 on a one-entry index with one section file. -/
theorem searchComponents_per_entry_witness :
    ((searchLoop sampleFS "docs" (lowerStr "fr-btn") sampleIndex (LRUCache.empty 50)).1.map
        searchProj
      = sampleIndex.filterMap (specEntryProj sampleFS "docs" "fr-btn")) :=
  (searchComponents_per_entry sampleIndex sampleFS "docs" "fr-btn" (LRUCache.empty 50)
    (cacheAgrees_empty sampleFS 50)).1

theorem searchLoop_empty_query (fs : FileSystem) (docsDir : String) :
    ∀ (index : List ComponentEntry) (cache : LRUCache String String),
      searchLoop fs docsDir "" index cache = (index.map metaResult, cache) := by
  intro index
  induction index with
  | nil =>
    intro cache
    rfl
  | cons e rest ih =>
    intro cache
    have hm : metaMatchB "" e = true := by
      unfold metaMatchB
      rw [strContains_empty_needle]
      rfl
    have hstep : entryStep fs docsDir "" e cache = (some (metaResult e), cache) := by
      unfold entryStep
      rw [if_pos hm]
    simp only [searchLoop, hstep]
    rw [ih cache]
    rfl

/-- Claim C10: on a non-empty index, searching with the empty query yields one
`metadata` result per entry (every string contains the empty substring), reads
no section file (the cache comes back untouched), and returns the success
payload, never the no-results payload. -/
theorem searchComponents_empty_query (index : List ComponentEntry) (fs : FileSystem)
    (docsDir : String) (cache : LRUCache String String) (hne : index ≠ []) :
    searchLoop fs docsDir "" index cache = (index.map metaResult, cache) ∧
    (searchLoop fs docsDir "" index cache).1 ≠ [] ∧
    searchComponents index fs docsDir "" cache
      = (textResult (searchSuccessText "" (index.map metaResult)), cache) := by
  have hl := searchLoop_empty_query fs docsDir index cache
  have hmap : index.map metaResult ≠ [] := by
    intro h0
    exact hne (List.map_eq_nil_iff.mp h0)
  refine ⟨hl, ?_, ?_⟩
  · rw [hl]
    exact hmap
  · simp only [searchComponents]
    rw [lowerStr_empty, hl]
    have hemp : (index.map metaResult).isEmpty = false := by
      cases hidx : index.map metaResult with
      | nil => exact absurd hidx hmap
      | cons a t => rfl
    dsimp only
    rw [hemp, if_neg Bool.false_ne_true]

/-- Witness for C10 on a one-entry index. -/
theorem searchComponents_empty_query_witness :
    searchComponents sampleIndex sampleFS "docs" "" (LRUCache.empty 50)
      = (textResult (searchSuccessText "" (sampleIndex.map metaResult)),
         LRUCache.empty 50) :=
  (searchComponents_empty_query sampleIndex sampleFS "docs" (LRUCache.empty 50)
    (by decide)).2.2

/-! ### Claims about the icon search -/

theorem iconLE_trans : ∀ (a b c : IconEntry × Nat),
    iconLE a b = true → iconLE b c = true → iconLE a c = true := by
  intro a b c hab hbc
  unfold iconLE at hab hbc ⊢
  by_cases h1 : a.2 = b.2
  · by_cases h2 : b.2 = c.2
    · rw [if_pos h1] at hab
      rw [if_pos h2] at hbc
      rw [if_pos (h1.trans h2)]
      exact decide_eq_true (le_trans (of_decide_eq_true hab) (of_decide_eq_true hbc))
    · rw [if_neg h2] at hbc
      have hcb : c.2 < b.2 := of_decide_eq_true hbc
      rw [if_neg (by omega)]
      exact decide_eq_true (by omega)
  · rw [if_neg h1] at hab
    have hba : b.2 < a.2 := of_decide_eq_true hab
    by_cases h2 : b.2 = c.2
    · rw [if_pos h2] at hbc
      rw [if_neg (by omega)]
      exact decide_eq_true (by omega)
    · rw [if_neg h2] at hbc
      have hcb : c.2 < b.2 := of_decide_eq_true hbc
      rw [if_neg (by omega)]
      exact decide_eq_true (by omega)

theorem iconLE_total : ∀ (a b : IconEntry × Nat), iconLE a b || iconLE b a := by
  intro a b
  unfold iconLE
  by_cases h : a.2 = b.2
  · rw [if_pos h, if_pos h.symm]
    rcases le_total a.1.name b.1.name with hle | hle
    · rw [decide_eq_true hle]
      rfl
    · rw [decide_eq_true hle]
      simp
  · rw [if_neg h, if_neg (Ne.symm h)]
    rcases Nat.lt_or_ge b.2 a.2 with hlt | hge
    · rw [decide_eq_true hlt]
      rfl
    · have : a.2 < b.2 := by omega
      rw [decide_eq_true this]
      simp

theorem mem_iconScored {icons : List IconEntry} {query : String} {category : Option String}
    {p : IconEntry × Nat} (h : p ∈ iconScored icons query category) :
    p.1 ∈ iconCandidates icons category ∧ p.2 = iconScore (lowerStr query) p.1 ∧ 0 < p.2 := by
  unfold iconScored at h
  obtain ⟨icon, hmem, hf⟩ := List.mem_filterMap.mp h
  by_cases hs : 0 < iconScore (lowerStr query) icon
  · rw [if_pos hs] at hf
    obtain rfl := Option.some_injective _ hf
    exact ⟨hmem, rfl, hs⟩
  · rw [if_neg hs] at hf
    exact absurd hf (by simp)

theorem iconScored_mem {icons : List IconEntry} {query : String} {category : Option String}
    {icon : IconEntry} (hmem : icon ∈ iconCandidates icons category)
    (hs : 0 < iconScore (lowerStr query) icon) :
    (icon, iconScore (lowerStr query) icon) ∈ iconScored icons query category := by
  unfold iconScored
  exact List.mem_filterMap.mpr ⟨icon, hmem, by rw [if_pos hs]⟩

theorem iconScore_exact {q : String} {icon : IconEntry} (h : lowerStr icon.name = q) :
    iconScore q icon = 3 := by
  simp [iconScore, h]

theorem iconScore_prefixOnly {q : String} {icon : IconEntry}
    (h1 : lowerStr icon.name ≠ q) (h2 : strStarts (lowerStr icon.name) q = true) :
    iconScore q icon = 2 := by
  simp [iconScore, h2, beq_eq_false_iff_ne.mpr h1]

/-- Claim C5: the icon search keeps exactly the candidates with positive score
(3 exact name match, else 2 name prefix, else 1 name or class substring), sorts
them by descending score with ties broken by ascending name, truncates to 20,
and in particular places an exactly-matching icon strictly before an icon whose
name merely starts with the query. -/
theorem searchIcons_ranking (icons : List IconEntry) (query : String)
    (category : Option String) :
    (∀ p ∈ iconLimited icons query category,
        p.1 ∈ iconCandidates icons category ∧ p.2 = iconScore (lowerStr query) p.1
          ∧ 0 < p.2) ∧
    (∀ icon ∈ iconCandidates icons category, 0 < iconScore (lowerStr query) icon →
        (icon, iconScore (lowerStr query) icon) ∈ iconSorted icons query category) ∧
    (iconLimited icons query category).length ≤ 20 ∧
    List.Pairwise (fun a b => iconLE a b = true) (iconLimited icons query category) ∧
    (∀ (i j : Nat) (hi : i < (iconLimited icons query category).length)
        (hj : j < (iconLimited icons query category).length),
        lowerStr ((iconLimited icons query category)[i].1.name) = lowerStr query →
        strStarts (lowerStr ((iconLimited icons query category)[j].1.name))
            (lowerStr query) = true →
        lowerStr ((iconLimited icons query category)[j].1.name) ≠ lowerStr query →
        i < j) := by
  have hsorted : List.Pairwise (fun a b => iconLE a b = true)
      (iconSorted icons query category) := by
    unfold iconSorted
    exact List.sorted_mergeSort iconLE_trans iconLE_total (iconScored icons query category)
  have hpair : List.Pairwise (fun a b => iconLE a b = true)
      (iconLimited icons query category) :=
    List.Pairwise.sublist (List.take_sublist 20 _) hsorted
  have hmemlim : ∀ p ∈ iconLimited icons query category,
      p.1 ∈ iconCandidates icons category ∧ p.2 = iconScore (lowerStr query) p.1
        ∧ 0 < p.2 := by
    intro p hp
    have hp2 : p ∈ iconSorted icons query category := List.mem_of_mem_take hp
    have hp3 : p ∈ iconScored icons query category := by
      unfold iconSorted at hp2
      exact List.mem_mergeSort.mp hp2
    exact mem_iconScored hp3
  refine ⟨hmemlim, ?_, ?_, hpair, ?_⟩
  · intro icon hmem hs
    unfold iconSorted
    exact List.mem_mergeSort.mpr (iconScored_mem hmem hs)
  · unfold iconLimited
    rw [List.length_take]
    exact min_le_left _ _
  · intro i j hi hj hexact hstart hnoteq
    rcases Nat.lt_trichotomy i j with hlt | heq | hgt
    · exact hlt
    · exfalso
      subst heq
      exact hnoteq hexact
    · exfalso
      have hle := List.pairwise_iff_getElem.mp hpair j i hj hi hgt
      have hsi := hmemlim ((iconLimited icons query category)[i]) (List.getElem_mem hi)
      have hsj := hmemlim ((iconLimited icons query category)[j]) (List.getElem_mem hj)
      have hscorei : ((iconLimited icons query category)[i]).2 = 3 :=
        hsi.2.1.trans (iconScore_exact hexact)
      have hscorej : ((iconLimited icons query category)[j]).2 = 2 :=
        hsj.2.1.trans (iconScore_prefixOnly hnoteq hstart)
      unfold iconLE at hle
      rw [if_neg (by omega)] at hle
      have := of_decide_eq_true hle
      omega

/-- Witness for C5: in the sample icon list, `download` is a positively scored
candidate and its scored pair appears in the sorted list. -/
theorem searchIcons_ranking_witness :
    sampleDownloadIcon ∈ iconCandidates sampleIcons none ∧
    (sampleDownloadIcon, iconScore (lowerStr "download") sampleDownloadIcon)
        ∈ iconSorted sampleIcons "download" none :=
  ⟨by decide,
   (searchIcons_ranking sampleIcons "download" none).2.1
     sampleDownloadIcon (by decide) (by decide)⟩

end DsfrMcp
